import Mathlib

/-!
# Verification of the Clarke-Wright CVRP solver (`vrp_solver.py`)

This file gives a shallow embedding of the core of `vrp_solver.py`
(`create_distance_matrix`, `clarke_wright`, and the control flow of
`get_osrm_distance`) and proves the specification claims about it.

Conventions of the embedding:
* Geographic coordinates are abstracted to an arbitrary type `α`; the
  distance backend is a parameter `d : α → α → ℚ`.  Numeric values
  (distances, demands, capacity) are rationals: the Python code only adds,
  subtracts and compares them, so the algorithm is generic in the numeric
  payload.
* The Python dict `customer_route` (keys `1..n`) is a list `custRoute`
  whose position `c-1` holds the slot of customer `c`; `crGet`/`crSet`
  mirror `dict.get` / item assignment for the 1-based keys.
* Python's `list[idx]` reads become `getD`; every read performed by the
  algorithm is in range, so the defaults are never observable.
* Python's `savings.sort(reverse=True)` is a stable sort under reversed
  tuple comparison; since all `(i, j)` pairs are distinct the output is
  the unique arrangement sorted by descending lexicographic tuple order,
  which is what `List.insertionSort savRel` produces.
-/

namespace VRP

/-- Entry `(i, j)` of a matrix represented as a list of rows
(out-of-range reads default to `0`, mirroring that the Python code never
reads out of range). -/
def mGet (m : List (List ℚ)) (i j : ℕ) : ℚ :=
  (m.getD i []).getD j 0

/-- The value stored at `(i, j)` by the fill loops of
`create_distance_matrix`: `np.zeros` leaves the diagonal at `0`; the
depot row/column holds depot-to-customer distances; each strict
upper-triangle entry and its mirror hold one customer-to-customer
distance. -/
def matEntry {α : Type} (d : α → α → ℚ) (depot : α) (cs : List α) (i j : ℕ) : ℚ :=
  if i = j then 0
  else if i = 0 then d depot (cs.getD (j - 1) depot)
  else if j = 0 then d depot (cs.getD (i - 1) depot)
  else if i < j then d (cs.getD (i - 1) depot) (cs.getD (j - 1) depot)
  else d (cs.getD (j - 1) depot) (cs.getD (i - 1) depot)

/-- `create_distance_matrix` from `vrp_solver.py`: the
`(n+1) × (n+1)` matrix (index 0 is the depot) with both `(i, j)` and
`(j, i)` filled from a single distance query. -/
def create_distance_matrix {α : Type} (d : α → α → ℚ) (depot : α) (cs : List α) :
    List (List ℚ) :=
  (List.range (cs.length + 1)).map fun i =>
    (List.range (cs.length + 1)).map fun j => matEntry d depot cs i j

/-! ## The networked distance lookup (`get_osrm_distance`)

Only the control flow matters for the claims: coordinate validation,
a single network request, and the haversine fallback.  The analytic
(haversine) backend is abstracted as a parameter `hav`, and the network
is a list of responses consumed one per request.  The function returns
the distance together with the number of network requests issued. -/

/-- A coordinate pair as validated by `get_osrm_distance`. -/
structure Coord where
  lat : ℚ
  lon : ℚ
deriving DecidableEq

/-- Outcome of one OSRM request: a route with a distance in meters, an
empty `routes` field, or a `requests.RequestException`. -/
inductive OsrmResponse
  | ok (meters : ℚ)
  | empty
  | failure
deriving DecidableEq

/-- The coordinate-range check at the top of `get_osrm_distance`. -/
def validCoord (c : Coord) : Prop :=
  -90 ≤ c.lat ∧ c.lat ≤ 90 ∧ -180 ≤ c.lon ∧ c.lon ≤ 180

instance (c : Coord) : Decidable (validCoord c) := by
  unfold validCoord; infer_instance

/-- `get_osrm_distance` from `vrp_solver.py`.  Returns the distance (km)
and the number of network requests made.  Invalid coordinates fall back
to haversine with no request; otherwise exactly one request is made, and
any non-`ok` outcome falls back to haversine. -/
def get_osrm_distance (hav : Coord → Coord → ℚ) (net : List OsrmResponse)
    (a b : Coord) : ℚ × ℕ :=
  if ¬(validCoord a ∧ validCoord b) then (hav a b, 0)
  else
    match net.head? with
    | some (OsrmResponse.ok m) => (m / 1000, 1)
    | _ => (hav a b, 1)

/-! ## Savings list -/

/-- The savings value `s(i,j) = d(0,i) + d(0,j) - d(i,j)` read off the
distance matrix. -/
def sav (mat : List (List ℚ)) (i j : ℕ) : ℚ :=
  mGet mat 0 i + mGet mat 0 j - mGet mat i j

/-- The savings triples `(s, i, j)` in generation order: `i` from `1` to
`n`, `j` from `i+1` to `n`. -/
def savingsGen (mat : List (List ℚ)) (n : ℕ) : List (ℚ × ℕ × ℕ) :=
  (List.range' 1 n).flatMap fun i =>
    (List.range' (i + 1) (n - i)).map fun j => (sav mat i j, i, j)

/-- `a` precedes (or equals) `b` in the order produced by Python's
`savings.sort(reverse=True)`: descending lexicographic comparison of the
tuples `(s, i, j)`. -/
def savRel (a b : ℚ × ℕ × ℕ) : Prop :=
  b.1 < a.1 ∨ (b.1 = a.1 ∧ (b.2.1 < a.2.1 ∨ (b.2.1 = a.2.1 ∧ b.2.2 ≤ a.2.2)))

instance : DecidableRel savRel := fun a b => by
  unfold savRel; infer_instance

instance : IsTotal (ℚ × ℕ × ℕ) savRel where
  total a b := by
    unfold savRel
    rcases lt_trichotomy b.1 a.1 with h | h | h
    · exact Or.inl (Or.inl h)
    · rcases Nat.lt_trichotomy b.2.1 a.2.1 with h2 | h2 | h2
      · exact Or.inl (Or.inr ⟨h, Or.inl h2⟩)
      · rcases Nat.le_total b.2.2 a.2.2 with h3 | h3
        · exact Or.inl (Or.inr ⟨h, Or.inr ⟨h2, h3⟩⟩)
        · exact Or.inr (Or.inr ⟨h.symm, Or.inr ⟨h2.symm, h3⟩⟩)
      · exact Or.inr (Or.inr ⟨h.symm, Or.inl h2⟩)
    · exact Or.inr (Or.inl h)

instance : IsTrans (ℚ × ℕ × ℕ) savRel where
  trans a b c hab hbc := by
    unfold savRel at hab hbc ⊢
    rcases hab with h1 | ⟨e1, h1⟩
    · rcases hbc with h2 | ⟨e2, h2⟩
      · exact Or.inl (h2.trans h1)
      · exact Or.inl (by rw [e2]; exact h1)
    · rcases hbc with h2 | ⟨e2, h2⟩
      · exact Or.inl (by rw [← e1]; exact h2)
      · refine Or.inr ⟨e2.trans e1, ?_⟩
        rcases h1 with h1 | ⟨f1, h1⟩
        · rcases h2 with h2 | ⟨f2, h2⟩
          · exact Or.inl (h2.trans h1)
          · exact Or.inl (by rw [f2]; exact h1)
        · rcases h2 with h2 | ⟨f2, h2⟩
          · exact Or.inl (by rw [← f1]; exact h2)
          · exact Or.inr ⟨f2.trans f1, h2.trans h1⟩

/-- The sorted savings list: `savings.sort(reverse=True)` of the
generated triples. -/
def savingsSorted (mat : List (List ℚ)) (n : ℕ) : List (ℚ × ℕ × ℕ) :=
  List.insertionSort savRel (savingsGen mat n)

/-! ## Merge pass state -/

/-- The mutable state of the greedy merge pass: the route slots
(`routes`), the per-slot loads (`route_loads`) and the customer-to-slot
dict (`customer_route`, keys `1..n` stored at positions `0..n-1`). -/
structure MergeState where
  routes : List (List ℕ)
  loads : List ℚ
  custRoute : List ℕ
deriving DecidableEq

/-- `customer_route.get(c)` for the 1-based dict: `none` for a key
outside `1..n`. -/
def crGet (cr : List ℕ) (c : ℕ) : Option ℕ :=
  if c = 0 then none else cr[c - 1]?

/-- `customer_route[c] = v` for a 1-based key `c` (the algorithm only
ever writes keys that are live customers). -/
def crSet (cr : List ℕ) (c v : ℕ) : List ℕ :=
  if c = 0 then cr else cr.set (c - 1) v

/-- One iteration of the `for s, i, j in savings` merge loop of
`clarke_wright`: skip on non-positive savings, same route, non-endpoint
position, or capacity overflow; otherwise splice by the four-case table
and retire slot `rj`. -/
def mergeStep (cap : ℚ) (st : MergeState) (sij : ℚ × ℕ × ℕ) : MergeState :=
  let s := sij.1
  let i := sij.2.1
  let j := sij.2.2
  if s ≤ 0 then st
  else
    match crGet st.custRoute i, crGet st.custRoute j with
    | some ri, some rj =>
      if ri = rj then st
      else
        let route_i := st.routes.getD ri []
        let route_j := st.routes.getD rj []
        let iStart : Prop := route_i.head? = some i
        let iEnd : Prop := route_i.getLast? = some i
        let jStart : Prop := route_j.head? = some j
        let jEnd : Prop := route_j.getLast? = some j
        if ¬((iStart ∨ iEnd) ∧ (jStart ∨ jEnd)) then st
        else
          let combined := st.loads.getD ri 0 + st.loads.getD rj 0
          if cap < combined then st
          else
            let spliced : Option (List ℕ) :=
              if iEnd ∧ jStart then some (route_i ++ route_j)
              else if iStart ∧ jEnd then some (route_j ++ route_i)
              else if iEnd ∧ jEnd then some (route_i ++ route_j.reverse)
              else if iStart ∧ jStart then some (route_i.reverse ++ route_j)
              else none
            match spliced with
            | none => st
            | some newRoute =>
              { routes := (st.routes.set ri newRoute).set rj []
                loads := (st.loads.set ri combined).set rj 0
                custRoute := newRoute.foldl (fun cr c => crSet cr c ri) st.custRoute }
    | _, _ => st

/-- The `non_empty_routes` / `non_empty_loads` filtering loop after the
merge pass. -/
def filterNonEmpty (routes : List (List ℕ)) (loads : List ℚ) :
    List (List ℕ) × List ℚ :=
  let z := (routes.zip loads).filter fun p => ¬p.1.isEmpty
  (z.map Prod.fst, z.map Prod.snd)

/-! ## Fleet-reduction pass -/

/-- `load < bound` where `none` plays the role of the initial
`float('inf')`. -/
def ltOptInf (x : ℚ) : Option ℚ → Bool
  | none => true
  | some v => decide (x < v)

/-- The two-smallest scan of the fleet-reduction loop
(`min_load_idx1 = min_load_idx2 = -1`, `min_load1 = min_load2 = inf`,
then one pass over `enumerate(non_empty_loads)`); `none` models `-1`. -/
def findTwoMinAux :
    List ℚ → ℕ → Option ℕ → Option ℕ → Option ℚ → Option ℚ → Option ℕ × Option ℕ
  | [], _, i1, i2, _, _ => (i1, i2)
  | load :: rest, k, i1, i2, m1, m2 =>
    if ltOptInf load m1 then findTwoMinAux rest (k + 1) (some k) i1 (some load) m1
    else if ltOptInf load m2 then findTwoMinAux rest (k + 1) i1 (some k) m1 (some load)
    else findTwoMinAux rest (k + 1) i1 i2 m1 m2

/-- Indices of the two smallest loads as computed by the scan. -/
def findTwoMinIdx (loads : List ℚ) : Option ℕ × Option ℕ :=
  findTwoMinAux loads 0 none none none none

/-- The `while len(non_empty_routes) > num_vehicles` loop, fuelled: each
iteration finds the two smallest loads, merges the routes by plain
concatenation if the combined load fits, and otherwise breaks.  One fuel
unit is one loop iteration; `fleetReduce` supplies enough fuel. -/
def fleetAux (cap : ℚ) (numV : ℕ) :
    ℕ → List (List ℕ) → List ℚ → List (List ℕ) × List ℚ
  | 0, routes, loads => (routes, loads)
  | fuel + 1, routes, loads =>
    if numV < routes.length then
      match findTwoMinIdx loads with
      | (some a, some b) =>
        let combined := loads.getD a 0 + loads.getD b 0
        if combined ≤ cap then
          fleetAux cap numV fuel
            ((routes.set a (routes.getD a [] ++ routes.getD b [])).eraseIdx b)
            ((loads.set a combined).eraseIdx b)
        else (routes, loads)
      | _ => (routes, loads)
    else (routes, loads)

/-- The fleet-reduction pass: the loop merges at most once per route, so
`routes.length` fuel is always enough (proved below). -/
def fleetReduce (cap : ℚ) (numV : ℕ) (routes : List (List ℕ)) (loads : List ℚ) :
    List (List ℕ) × List ℚ :=
  fleetAux cap numV routes.length routes loads

/-! ## `clarke_wright` -/

/-- `clarke_wright` from `vrp_solver.py`, parameterized by the distance
backend `d`.  Returns `(routes, dist_matrix, route_loads)`. -/
def clarke_wright {α : Type} (d : α → α → ℚ) (depot : α) (customers : List α)
    (demands : List ℚ) (cap : ℚ) (numV : ℕ) :
    List (List ℕ) × List (List ℚ) × List ℚ :=
  let n := customers.length
  if n = 0 then ([], [[0]], [])
  else
    let dist := create_distance_matrix d depot customers
    let init : MergeState :=
      { routes := (List.range n).map fun i => [i + 1]
        loads := (List.range n).map fun i => demands.getD i 0
        custRoute := List.range n }
    let merged := (savingsSorted dist n).foldl (mergeStep cap) init
    let fne := filterNonEmpty merged.routes merged.loads
    let final := fleetReduce cap numV fne.1 fne.2
    (final.1, dist, final.2)

/-! ## Generic list helpers -/

lemma getD_map_range {β : Type} (n : ℕ) (f : ℕ → β) (k : ℕ) (dflt : β) (h : k < n) :
    ((List.range n).map f).getD k dflt = f k := by
  rw [List.getD_eq_getElem?_getD, List.getElem?_map]
  simp [List.getElem?_range, h]

lemma getD_set_self {β : Type} (l : List β) (i : ℕ) (a dflt : β) (h : i < l.length) :
    (l.set i a).getD i dflt = a := by
  rw [List.getD_eq_getElem?_getD, List.getElem?_set_self (by simpa using h)]
  rfl

lemma getD_set_ne {β : Type} (l : List β) {i j : ℕ} (a : β) (dflt : β) (h : i ≠ j) :
    (l.set i a).getD j dflt = l.getD j dflt := by
  rw [List.getD_eq_getElem?_getD, List.getElem?_set_ne h, ← List.getD_eq_getElem?_getD]

lemma getD_out_of_range {β : Type} (l : List β) (i : ℕ) (dflt : β) (h : l.length ≤ i) :
    l.getD i dflt = dflt := by
  rw [List.getD_eq_getElem?_getD, List.getElem?_eq_none (by simpa using h)]
  rfl

/-! ## C9: zero customers -/

/-- C9: for the input with zero customers, `clarke_wright` returns an
empty route list, a 1×1 all-zero distance matrix, and an empty load
list, without raising any error. -/
theorem clarke_wright_zero_customers {α : Type} (d : α → α → ℚ) (depot : α)
    (demands : List ℚ) (cap : ℚ) (numV : ℕ) :
    clarke_wright d depot ([] : List α) demands cap numV = ([], [[0]], []) := rfl

/-! ## C6: only positive savings merge -/

lemma mergeStep_nonpos (cap : ℚ) (st : MergeState) (sij : ℚ × ℕ × ℕ)
    (h : sij.1 ≤ 0) : mergeStep cap st sij = st := by
  simp [mergeStep, h]

/-- C6: in every execution of the merge pass, no merge is performed for
a savings pair whose value is zero or negative: the pass computes the
same state as the pass restricted to the strictly positive savings
entries, so every executed merge has `s > 0`. -/
theorem merge_pass_positive_savings_only (cap : ℚ) (st : MergeState)
    (savings : List (ℚ × ℕ × ℕ)) :
    savings.foldl (mergeStep cap) st
      = (savings.filter fun sij => decide (0 < sij.1)).foldl (mergeStep cap) st := by
  induction savings generalizing st with
  | nil => rfl
  | cons hd tl ih =>
    by_cases h : 0 < hd.1
    · simp only [List.filter_cons, List.foldl_cons, decide_eq_true_eq, if_pos h]
      exact ih (mergeStep cap st hd)
    · rw [List.filter_cons, if_neg (by simpa using h), List.foldl_cons,
        mergeStep_nonpos cap st hd (le_of_not_lt h)]
      exact ih st

/-! ## C7: the networked lookup makes one attempt, then falls back -/

/-- C7 counterexample: with valid coordinates, a failing first request
and a network that would answer a second (jittered) request, the code
performs only one request — it does not retry, contradicting the claim
that it retries exactly once before falling back. -/
theorem osrm_no_jitter_retry_counterexample :
    (get_osrm_distance (fun _ _ => 7)
        [OsrmResponse.failure, OsrmResponse.ok 5000] ⟨0, 0⟩ ⟨1, 1⟩).2 ≠ 2 := by
  decide

/-- C7 amended: on an empty result or transport failure the lookup falls
back directly to the analytic (haversine) distance after its single
network request — no retry, no jitter — and in no case is the failure
surfaced as fatal: a distance is always returned. -/
theorem osrm_single_attempt_fallback (hav : Coord → Coord → ℚ)
    (net : List OsrmResponse) (a b : Coord)
    (hv : validCoord a ∧ validCoord b)
    (hfail : ∀ m, net.head? ≠ some (OsrmResponse.ok m)) :
    get_osrm_distance hav net a b = (hav a b, 1) := by
  unfold get_osrm_distance
  rw [if_neg (not_not_intro hv)]
  rcases hn : net.head? with _ | r
  · rfl
  · cases r with
    | ok m => exact absurd hn (hfail m)
    | empty => rfl
    | failure => rfl

theorem osrm_single_attempt_fallback_witness :
    get_osrm_distance (fun _ _ => 7)
        [OsrmResponse.failure, OsrmResponse.ok 5000] ⟨0, 0⟩ ⟨1, 1⟩
      = ((7 : ℚ), 1) :=
  osrm_single_attempt_fallback (fun _ _ => 7) _ ⟨0, 0⟩ ⟨1, 1⟩ (by decide)
    (fun m h => by simp at h)

/-! ## C8: shape and algebraic properties of the distance matrix -/

lemma matEntry_symm {α : Type} (d : α → α → ℚ) (depot : α) (cs : List α) (i j : ℕ) :
    matEntry d depot cs i j = matEntry d depot cs j i := by
  unfold matEntry
  split_ifs <;> first | rfl | omega

lemma mGet_create {α : Type} (d : α → α → ℚ) (depot : α) (cs : List α)
    {i j : ℕ} (hi : i ≤ cs.length) (hj : j ≤ cs.length) :
    mGet (create_distance_matrix d depot cs) i j = matEntry d depot cs i j := by
  unfold mGet create_distance_matrix
  rw [getD_map_range _ _ _ _ (by omega), getD_map_range _ _ _ _ (by omega)]

/-- C8: for every depot and customer list of length `N`, the matrix
returned by `create_distance_matrix` is `(N+1)×(N+1)`, symmetric, has a
zero diagonal, has all entries nonnegative whenever the underlying
lookup is nonnegative, and entry `[0][k]` is the depot-to-customer-`k`
distance. -/
theorem create_distance_matrix_spec {α : Type} (d : α → α → ℚ) (depot : α)
    (cs : List α) (hd : ∀ a b, 0 ≤ d a b) :
    (create_distance_matrix d depot cs).length = cs.length + 1 ∧
    (∀ row ∈ create_distance_matrix d depot cs, row.length = cs.length + 1) ∧
    (∀ i j, i ≤ cs.length → j ≤ cs.length →
      mGet (create_distance_matrix d depot cs) i j
        = mGet (create_distance_matrix d depot cs) j i) ∧
    (∀ i, i ≤ cs.length → mGet (create_distance_matrix d depot cs) i i = 0) ∧
    (∀ i j, 0 ≤ mGet (create_distance_matrix d depot cs) i j) ∧
    (∀ k, 1 ≤ k → k ≤ cs.length →
      mGet (create_distance_matrix d depot cs) 0 k = d depot (cs.getD (k - 1) depot)) := by
  refine ⟨?_, ?_, ?_, ?_, ?_, ?_⟩
  · simp [create_distance_matrix]
  · intro row hrow
    rcases List.mem_map.mp hrow with ⟨i, _, rfl⟩
    simp
  · intro i j hi hj
    rw [mGet_create d depot cs hi hj, mGet_create d depot cs hj hi]
    exact matEntry_symm d depot cs i j
  · intro i hi
    rw [mGet_create d depot cs hi hi]
    unfold matEntry
    rw [if_pos rfl]
  · intro i j
    by_cases hi : i ≤ cs.length
    · by_cases hj : j ≤ cs.length
      · rw [mGet_create d depot cs hi hj]
        unfold matEntry
        split_ifs <;> first | exact le_refl 0 | exact hd _ _
      · unfold mGet create_distance_matrix
        rw [getD_map_range _ _ _ _ (show i < cs.length + 1 by omega)]
        rw [getD_out_of_range (List.map _ _) j 0 (by simp; omega)]
    · have hrow : (create_distance_matrix d depot cs).getD i [] = [] :=
        getD_out_of_range _ _ _ (by simp [create_distance_matrix]; omega)
      unfold mGet
      rw [hrow]
      simp
  · intro k hk1 hk2
    rw [mGet_create d depot cs (by omega) hk2]
    unfold matEntry
    rw [if_neg (by omega), if_pos rfl]

theorem create_distance_matrix_spec_witness :
    (∀ a b : ℕ, 0 ≤ (fun _ _ => (1 : ℚ)) a b) ∧
    (create_distance_matrix (fun _ _ => (1 : ℚ)) 0 [7, 9]).length = 3 :=
  ⟨fun _ _ => by norm_num,
   (create_distance_matrix_spec (fun _ _ => (1 : ℚ)) 0 [7, 9]
      (fun _ _ => by norm_num)).1⟩

/-! ## C5: the savings list -/

lemma range'_one_concat : ∀ (n s : ℕ), List.range' s (n + 1) = List.range' s n ++ [s + n]
  | 0, s => by simp [List.range'_succ]
  | n + 1, s => by
    rw [List.range'_succ, range'_one_concat n (s + 1), List.range'_succ]
    simp [Nat.add_assoc, Nat.add_comm 1 n]

lemma map_sum_succ (l : List ℕ) (f g : ℕ → ℕ) (h : ∀ i ∈ l, f i = g i + 1) :
    (l.map f).sum = (l.map g).sum + l.length := by
  induction l with
  | nil => rfl
  | cons hd tl ih =>
    simp only [List.map_cons, List.sum_cons, List.length_cons,
      h hd (List.mem_cons_self hd tl),
      ih fun i hi => h i (List.mem_cons_of_mem hd hi)]
    omega

lemma triangle_sum : ∀ n : ℕ, 2 * ((List.range' 1 n).map fun i => n - i).sum = n * (n - 1)
  | 0 => rfl
  | m + 1 => by
    rw [range'_one_concat m 1, List.map_append, List.sum_append]
    have hstep : ((List.range' 1 m).map fun i => m + 1 - i).sum
        = ((List.range' 1 m).map fun i => m - i).sum + m := by
      rw [map_sum_succ _ _ (fun i => m - i)
        (fun i hi => by
          have := List.mem_range'_1.mp hi
          show m + 1 - i = m - i + 1
          omega)]
      simp [List.length_range']
    simp only [List.map_cons, List.map_nil, List.sum_cons, List.sum_nil, hstep]
    have ih := triangle_sum m
    have hm1 : m + 1 - (1 + m) = 0 := by omega
    rw [hm1]
    cases m with
    | zero => simp
    | succ k =>
      have hq : (k + 1 + 1) * (k + 1 + 1 - 1) = (k + 1) * (k + 1 - 1) + 2 * (k + 1) := by
        simp only [Nat.add_sub_cancel]
        ring
      rw [hq]
      omega

lemma savingsGen_length (mat : List (List ℚ)) (n : ℕ) :
    2 * (savingsGen mat n).length = n * (n - 1) := by
  unfold savingsGen
  rw [List.length_flatMap]
  simp only [Function.comp_def, List.length_map, List.length_range']
  exact triangle_sum n

lemma mem_savingsGen (mat : List (List ℚ)) (n : ℕ) (t : ℚ × ℕ × ℕ) :
    t ∈ savingsGen mat n ↔
      1 ≤ t.2.1 ∧ t.2.1 < t.2.2 ∧ t.2.2 ≤ n ∧ t.1 = sav mat t.2.1 t.2.2 := by
  obtain ⟨s, i, j⟩ := t
  simp only [savingsGen, List.mem_flatMap, List.mem_map, List.mem_range'_1]
  constructor
  · rintro ⟨a, ⟨ha1, ha2⟩, b, ⟨hb1, hb2⟩, heq⟩
    obtain ⟨rfl, rfl, rfl⟩ := Prod.mk.injEq .. ▸ heq
    exact ⟨ha1, by omega, by omega, rfl⟩
  · rintro ⟨h1, h2, h3, rfl⟩
    exact ⟨i, ⟨h1, by omega⟩, j, ⟨by omega, by omega⟩, rfl⟩

/-- The ordering asserted by the claim: descending savings value, and
for equal savings values generation order, `i` ascending then `j`
ascending. -/
def specTieRel (a b : ℚ × ℕ × ℕ) : Prop :=
  b.1 < a.1 ∨ (b.1 = a.1 ∧ (a.2.1 < b.2.1 ∨ (a.2.1 = b.2.1 ∧ a.2.2 ≤ b.2.2)))

instance : DecidableRel specTieRel := fun a b => by
  unfold specTieRel; infer_instance

/-- A depot and three customers all at mutual distance 1: every pair has
the same savings value `1`. -/
def tieMatrix : List (List ℚ) :=
  [[0, 1, 1, 1], [1, 0, 1, 1], [1, 1, 0, 1], [1, 1, 1, 0]]

/-- C5 counterexample: on a distance matrix in which all three savings
values are equal, the sorted savings list produced by the code is
`[(1,2,3), (1,1,3), (1,1,2)]` — equal-savings entries appear with `i`
descending — so the list is not ordered the way the claim states
(generation order, `i` ascending, for ties). -/
theorem savings_tie_order_counterexample :
    savingsSorted tieMatrix 3 = [(1, 2, 3), (1, 1, 3), (1, 1, 2)] ∧
    ¬ List.Pairwise specTieRel (savingsSorted tieMatrix 3) := by
  have hgen : savingsGen tieMatrix 3 = [(1, 1, 2), (1, 1, 3), (1, 2, 3)] := by
    simp [savingsGen, sav, mGet, tieMatrix, List.range']
  have hsorted : savingsSorted tieMatrix 3 = [(1, 2, 3), (1, 1, 3), (1, 1, 2)] := by
    rw [savingsSorted, hgen]
    decide
  refine ⟨hsorted, ?_⟩
  rw [hsorted]
  decide

/-- C5 amended: the savings list contains exactly the `N·(N−1)/2`
unordered pairs `(i, j)` with `1 ≤ i < j ≤ N`, sorted by descending
savings value `s(i,j) = d(0,i) + d(0,j) − d(i,j)`; entries with equal
savings value appear in reverse generation order, `i` descending then
`j` descending (Python's `sort(reverse=True)` reverses the tuple
comparison instead of preserving generation order). -/
theorem savings_list_spec (mat : List (List ℚ)) (n : ℕ) :
    (savingsSorted mat n).Perm (savingsGen mat n) ∧
    List.Pairwise savRel (savingsSorted mat n) ∧
    2 * (savingsSorted mat n).length = n * (n - 1) ∧
    (∀ t : ℚ × ℕ × ℕ, t ∈ savingsSorted mat n ↔
      1 ≤ t.2.1 ∧ t.2.1 < t.2.2 ∧ t.2.2 ≤ n ∧ t.1 = sav mat t.2.1 t.2.2) := by
  unfold savingsSorted
  refine ⟨List.perm_insertionSort savRel (savingsGen mat n),
    List.sorted_insertionSort savRel (savingsGen mat n), ?_, ?_⟩
  · rw [(List.perm_insertionSort savRel (savingsGen mat n)).length_eq]
    exact savingsGen_length mat n
  · intro t
    rw [(List.perm_insertionSort savRel (savingsGen mat n)).mem_iff]
    exact mem_savingsGen mat n t

/-! ## C3: the endpoint splice table -/

/-- The splice table as worded in the specification (§4.3 steps 3 and
5): determine head/tail position of `i` and `j`; skip (`none`) if either
is strictly interior; otherwise splice by the four cases, tried in the
spec's priority order. -/
def spliceSpec (Ri Rj : List ℕ) (i j : ℕ) : Option (List ℕ) :=
  let iH : Prop := Ri.head? = some i
  let iT : Prop := Ri.getLast? = some i
  let jH : Prop := Rj.head? = some j
  let jT : Prop := Rj.getLast? = some j
  if ¬((iH ∨ iT) ∧ (jH ∨ jT)) then none
  else if iT ∧ jH then some (Ri ++ Rj)
  else if iH ∧ jT then some (Rj ++ Ri)
  else if iT ∧ jT then some (Ri ++ Rj.reverse)
  else if iH ∧ jH then some (Ri.reverse ++ Rj)
  else none

/-- C3: a merge for savings pair `(i, j)` is executed only when both
customers sit at an end of their distinct routes — interior customers
are never spliced (the `none` branch leaves the state untouched) — and
the merged route is exactly the spec's four-case table with the cases
tried in priority order; a pair of singleton routes falls into the first
(tail/head) case, producing `route(i) ++ route(j)`. -/
theorem merge_endpoint_table (cap s : ℚ) (i j : ℕ) (st : MergeState) (ri rj : ℕ)
    (hs : 0 < s)
    (hri : crGet st.custRoute i = some ri)
    (hrj : crGet st.custRoute j = some rj)
    (hne : ri ≠ rj)
    (hcap : st.loads.getD ri 0 + st.loads.getD rj 0 ≤ cap) :
    (mergeStep cap st (s, i, j) =
      match spliceSpec (st.routes.getD ri []) (st.routes.getD rj []) i j with
      | none => st
      | some nr =>
        { routes := (st.routes.set ri nr).set rj []
          loads := (st.loads.set ri (st.loads.getD ri 0 + st.loads.getD rj 0)).set rj 0
          custRoute := nr.foldl (fun cr c => crSet cr c ri) st.custRoute }) ∧
    (st.routes.getD ri [] = [i] → st.routes.getD rj [] = [j] →
      spliceSpec (st.routes.getD ri []) (st.routes.getD rj []) i j
        = some (st.routes.getD ri [] ++ st.routes.getD rj [])) ∧
    (¬((st.routes.getD ri []).head? = some i ∨ (st.routes.getD ri []).getLast? = some i) →
      mergeStep cap st (s, i, j) = st) := by
  have hmain : mergeStep cap st (s, i, j) =
      match spliceSpec (st.routes.getD ri []) (st.routes.getD rj []) i j with
      | none => st
      | some nr =>
        { routes := (st.routes.set ri nr).set rj []
          loads := (st.loads.set ri (st.loads.getD ri 0 + st.loads.getD rj 0)).set rj 0
          custRoute := nr.foldl (fun cr c => crSet cr c ri) st.custRoute } := by
    unfold mergeStep spliceSpec
    rw [if_neg (not_le.mpr hs), hri, hrj]
    simp only
    rw [if_neg hne]
    by_cases hend : ((st.routes.getD ri []).head? = some i ∨
        (st.routes.getD ri []).getLast? = some i) ∧
        ((st.routes.getD rj []).head? = some j ∨ (st.routes.getD rj []).getLast? = some j)
    · rw [if_neg (not_not_intro hend), if_neg (not_lt.mpr hcap),
        if_neg (not_not_intro hend)]
    · rw [if_pos hend, if_pos hend]
  refine ⟨hmain, ?_, ?_⟩
  · intro hci hcj
    rw [hci, hcj]
    simp [spliceSpec]
  · intro hint
    rw [hmain]
    have hnone : spliceSpec (st.routes.getD ri []) (st.routes.getD rj []) i j = none := by
      unfold spliceSpec
      rw [if_pos (fun hc => hint hc.1)]
    rw [hnone]

theorem merge_endpoint_table_witness :
    mergeStep 0 ⟨[[1], [2]], [0, 0], [0, 1]⟩ ((1 : ℚ), 1, 2)
      = ⟨[[1, 2], []], [0, 0], [0, 0]⟩ := by
  have h := (merge_endpoint_table 0 1 1 2 ⟨[[1], [2]], [0, 0], [0, 1]⟩ 0 1
    (by decide) (by decide) (by decide) (by decide) (by simp)).1
  rw [h]
  simp [spliceSpec, crSet]

/-! ## Characterization of the two-smallest scan -/

lemma getD_append_left {β : Type} (l m : List β) (k : ℕ) (dflt : β) (h : k < l.length) :
    (l ++ m).getD k dflt = l.getD k dflt := by
  rw [List.getD_eq_getElem?_getD, List.getElem?_append, if_pos h,
    ← List.getD_eq_getElem?_getD]

lemma getD_append_length {β : Type} (l : List β) (x dflt : β) :
    (l ++ [x]).getD l.length dflt = x := by
  rw [List.getD_eq_getElem?_getD, List.getElem?_append, if_neg (lt_irrefl _)]
  simp

/-- `a` is the first index of a minimal element of `l` (the index kept
in `min_load_idx1` by the scan). -/
def FirstMin (l : List ℚ) (a : ℕ) : Prop :=
  a < l.length ∧ (∀ k, k < l.length → l.getD a 0 ≤ l.getD k 0) ∧
    (∀ k, k < a → l.getD a 0 < l.getD k 0)

/-- `b` is the first index other than `a` of a minimal element of `l`
with index `a` masked (the index kept in `min_load_idx2`). -/
def SecondMin (l : List ℚ) (a b : ℕ) : Prop :=
  b < l.length ∧ b ≠ a ∧ (∀ k, k < l.length → k ≠ a → l.getD b 0 ≤ l.getD k 0) ∧
    (∀ k, k < b → k ≠ a → l.getD b 0 < l.getD k 0)

/-- Invariant of the scan state after processing the prefix `pre`. -/
def ScanInv (pre : List ℚ) (i1 i2 : Option ℕ) (m1 m2 : Option ℚ) : Prop :=
  match i1, i2 with
  | none, none => pre = [] ∧ m1 = none ∧ m2 = none
  | some a, none => pre.length = 1 ∧ a = 0 ∧ m1 = some (pre.getD 0 0) ∧ m2 = none
  | some a, some b => 2 ≤ pre.length ∧ m1 = some (pre.getD a 0) ∧ m2 = some (pre.getD b 0)
      ∧ FirstMin pre a ∧ SecondMin pre a b
  | none, some _ => False

lemma scanInv_step1 (pre : List ℚ) (x : ℚ) (i1 i2 : Option ℕ) (m1 m2 : Option ℚ)
    (h : ScanInv pre i1 i2 m1 m2) (hlt : ltOptInf x m1 = true) :
    ScanInv (pre ++ [x]) (some pre.length) i1 (some x) m1 := by
  rcases i1 with _ | a
  · rcases i2 with _ | b
    · obtain ⟨rfl, rfl, rfl⟩ := h
      exact ⟨rfl, rfl, rfl, rfl⟩
    · exact absurd h not_false
  · rcases i2 with _ | b
    · obtain ⟨hL, rfl, rfl, rfl⟩ := h
      obtain ⟨p, rfl⟩ := List.length_eq_one.mp hL
      have hx : x < p := by simpa using of_decide_eq_true hlt
      refine ⟨by simp, by simp, by simp, ?_, ?_⟩
      · refine ⟨by simp, fun k hk => ?_, fun k hk => ?_⟩
        · simp only [List.length_append, List.length_singleton] at hk
          interval_cases k <;> simp [le_of_lt hx]
        · simp only [List.length_singleton] at hk
          interval_cases k
          simpa using hx
      · refine ⟨by simp, by simp, fun k hk hkne => ?_, fun k hk hkne => ?_⟩
        · simp only [List.length_append, List.length_singleton] at hk
          simp only [List.length_singleton] at hkne
          have hk0 : k = 0 := by omega
          simp [hk0]
        · omega
    · obtain ⟨hL2, rfl, rfl, hFM, hSM⟩ := h
      have hx : x < pre.getD a 0 := of_decide_eq_true hlt
      obtain ⟨haL, hle, hltm⟩ := hFM
      have hgx : (pre ++ [x]).getD pre.length 0 = x := getD_append_length pre x 0
      have hga : (pre ++ [x]).getD a 0 = pre.getD a 0 := getD_append_left _ _ _ _ haL
      refine ⟨by simp; omega, by rw [hgx], by rw [hga], ?_, ?_⟩
      · refine ⟨by simp, ?_, ?_⟩
        · intro k hk
          simp at hk
          rw [hgx]
          rcases Nat.lt_or_ge k pre.length with hk2 | hk2
          · rw [getD_append_left _ _ _ _ hk2]
            exact le_of_lt (lt_of_lt_of_le hx (hle k hk2))
          · have : k = pre.length := by omega
            rw [this, hgx]
        · intro k hk
          rw [hgx, getD_append_left _ _ _ _ hk]
          exact lt_of_lt_of_le hx (hle k hk)
      · refine ⟨by simp; omega, by omega, ?_, ?_⟩
        · intro k hk hkne
          simp at hk
          have hkL : k < pre.length := by omega
          rw [hga, getD_append_left _ _ _ _ hkL]
          exact hle k hkL
        · intro k hk hkne
          have hkL : k < pre.length := by omega
          rw [hga, getD_append_left _ _ _ _ hkL]
          exact hltm k hk

lemma scanInv_step2 (pre : List ℚ) (x : ℚ) (i1 i2 : Option ℕ) (m1 m2 : Option ℚ)
    (h : ScanInv pre i1 i2 m1 m2) (hlt1 : ltOptInf x m1 = false)
    (hlt2 : ltOptInf x m2 = true) :
    ScanInv (pre ++ [x]) i1 (some pre.length) m1 (some x) := by
  rcases i1 with _ | a
  · rcases i2 with _ | b
    · obtain ⟨rfl, rfl, rfl⟩ := h
      exact absurd hlt1 (by simp [ltOptInf])
    · exact absurd h not_false
  · rcases i2 with _ | b
    · obtain ⟨hL, rfl, rfl, rfl⟩ := h
      obtain ⟨p, rfl⟩ := List.length_eq_one.mp hL
      have hxge : ¬ x < p := by simpa using of_decide_eq_false hlt1
      refine ⟨by simp, by simp, by simp, ?_, ?_⟩
      · refine ⟨by simp, fun k hk => ?_, fun k hk => ?_⟩
        · simp only [List.length_append, List.length_singleton] at hk
          interval_cases k <;> simp [le_of_not_lt hxge]
        · omega
      · refine ⟨by simp, by simp, fun k hk hkne => ?_, fun k hk hkne => ?_⟩
        · simp only [List.length_append, List.length_singleton] at hk
          have hk1 : k = 1 := by omega
          simp [hk1]
        · simp only [List.length_singleton] at hk
          omega
    · obtain ⟨hL2, rfl, rfl, hFM, hSM⟩ := h
      have hxge : ¬ x < pre.getD a 0 := of_decide_eq_false hlt1
      have hxlt : x < pre.getD b 0 := of_decide_eq_true hlt2
      obtain ⟨haL, hle, hltm⟩ := hFM
      obtain ⟨hbL, hbne, hble, hbltm⟩ := hSM
      have hgx : (pre ++ [x]).getD pre.length 0 = x := getD_append_length pre x 0
      have hga : (pre ++ [x]).getD a 0 = pre.getD a 0 := getD_append_left _ _ _ _ haL
      refine ⟨by simp; omega, by rw [hga], by rw [hgx], ?_, ?_⟩
      · refine ⟨by simp; omega, ?_, ?_⟩
        · intro k hk
          simp at hk
          rw [hga]
          rcases Nat.lt_or_ge k pre.length with hk2 | hk2
          · rw [getD_append_left _ _ _ _ hk2]
            exact hle k hk2
          · have : k = pre.length := by omega
            rw [this, hgx]
            exact le_of_not_lt hxge
        · intro k hk
          have hkL : k < pre.length := by omega
          rw [hga, getD_append_left _ _ _ _ hkL]
          exact hltm k hk
      · refine ⟨by simp, by omega, ?_, ?_⟩
        · intro k hk hkne
          simp at hk
          rw [hgx]
          rcases Nat.lt_or_ge k pre.length with hk2 | hk2
          · rw [getD_append_left _ _ _ _ hk2]
            exact le_of_lt (lt_of_lt_of_le hxlt (hble k hk2 hkne))
          · have : k = pre.length := by omega
            rw [this, hgx]
        · intro k hk hkne
          have hkL : k < pre.length := by omega
          rw [hgx, getD_append_left _ _ _ _ hkL]
          exact lt_of_lt_of_le hxlt (hble k hkL hkne)

lemma scanInv_step3 (pre : List ℚ) (x : ℚ) (i1 i2 : Option ℕ) (m1 m2 : Option ℚ)
    (h : ScanInv pre i1 i2 m1 m2) (hlt1 : ltOptInf x m1 = false)
    (hlt2 : ltOptInf x m2 = false) :
    ScanInv (pre ++ [x]) i1 i2 m1 m2 := by
  rcases i1 with _ | a
  · rcases i2 with _ | b
    · obtain ⟨rfl, rfl, rfl⟩ := h
      exact absurd hlt1 (by simp [ltOptInf])
    · exact absurd h not_false
  · rcases i2 with _ | b
    · obtain ⟨_, _, _, rfl⟩ := h
      exact absurd hlt2 (by simp [ltOptInf])
    · obtain ⟨hL2, rfl, rfl, hFM, hSM⟩ := h
      have hxge : ¬ x < pre.getD a 0 := of_decide_eq_false hlt1
      have hxge2 : ¬ x < pre.getD b 0 := of_decide_eq_false hlt2
      obtain ⟨haL, hle, hltm⟩ := hFM
      obtain ⟨hbL, hbne, hble, hbltm⟩ := hSM
      have hgx : (pre ++ [x]).getD pre.length 0 = x := getD_append_length pre x 0
      have hga : (pre ++ [x]).getD a 0 = pre.getD a 0 := getD_append_left _ _ _ _ haL
      have hgb : (pre ++ [x]).getD b 0 = pre.getD b 0 := getD_append_left _ _ _ _ hbL
      refine ⟨by simp; omega, by rw [hga], by rw [hgb], ?_, ?_⟩
      · refine ⟨by simp; omega, ?_, ?_⟩
        · intro k hk
          simp at hk
          rw [hga]
          rcases Nat.lt_or_ge k pre.length with hk2 | hk2
          · rw [getD_append_left _ _ _ _ hk2]
            exact hle k hk2
          · have : k = pre.length := by omega
            rw [this, hgx]
            exact le_of_not_lt hxge
        · intro k hk
          have hkL : k < pre.length := by omega
          rw [hga, getD_append_left _ _ _ _ hkL]
          exact hltm k hk
      · refine ⟨by simp; omega, hbne, ?_, ?_⟩
        · intro k hk hkne
          simp at hk
          rw [hgb]
          rcases Nat.lt_or_ge k pre.length with hk2 | hk2
          · rw [getD_append_left _ _ _ _ hk2]
            exact hble k hk2 hkne
          · have : k = pre.length := by omega
            rw [this, hgx]
            exact le_of_not_lt hxge2
        · intro k hk hkne
          have hkL : k < pre.length := by omega
          rw [hgb, getD_append_left _ _ _ _ hkL]
          exact hbltm k hk hkne

lemma scan_run (rest : List ℚ) :
    ∀ (pre : List ℚ) (i1 i2 : Option ℕ) (m1 m2 : Option ℚ),
      ScanInv pre i1 i2 m1 m2 →
      ∃ m1' m2', ScanInv (pre ++ rest) (findTwoMinAux rest pre.length i1 i2 m1 m2).1
        (findTwoMinAux rest pre.length i1 i2 m1 m2).2 m1' m2' := by
  induction rest with
  | nil =>
    intro pre i1 i2 m1 m2 h
    exact ⟨m1, m2, by simpa using h⟩
  | cons x rest ih =>
    intro pre i1 i2 m1 m2 h
    rw [show pre ++ x :: rest = (pre ++ [x]) ++ rest from by simp]
    unfold findTwoMinAux
    rcases h1 : ltOptInf x m1 with _ | _
    · rcases h2 : ltOptInf x m2 with _ | _
      · rw [if_neg (by simp [h1]), if_neg (by simp [h2])]
        have hnext := scanInv_step3 pre x i1 i2 m1 m2 h h1 h2
        have := ih (pre ++ [x]) i1 i2 m1 m2 hnext
        simpa using this
      · rw [if_neg (by simp [h1]), if_pos (by simp [h2])]
        have hnext := scanInv_step2 pre x i1 i2 m1 m2 h h1 h2
        have := ih (pre ++ [x]) i1 (some pre.length) m1 (some x) hnext
        simpa using this
    · rw [if_pos (by simp [h1])]
      have hnext := scanInv_step1 pre x i1 i2 m1 m2 h h1
      have := ih (pre ++ [x]) (some pre.length) i1 (some x) m1 hnext
      simpa using this

lemma findTwoMinIdx_scanInv (loads : List ℚ) :
    ∃ m1 m2, ScanInv loads (findTwoMinIdx loads).1 (findTwoMinIdx loads).2 m1 m2 := by
  have h0 : ScanInv [] none none none none := ⟨rfl, rfl, rfl⟩
  have := scan_run loads [] none none none none h0
  simpa [findTwoMinIdx] using this

/-- Soundness: whenever the scan reports two indices, they are the first
minimum and the first minimum-of-the-rest. -/
lemma findTwoMinIdx_some_spec (loads : List ℚ) (a b : ℕ)
    (h : findTwoMinIdx loads = (some a, some b)) :
    FirstMin loads a ∧ SecondMin loads a b := by
  obtain ⟨m1, m2, hinv⟩ := findTwoMinIdx_scanInv loads
  rw [h] at hinv
  exact ⟨hinv.2.2.2.1, hinv.2.2.2.2⟩

/-- Completeness: with at least two loads, the scan reports two
indices. -/
lemma findTwoMinIdx_of_two (loads : List ℚ) (h2 : 2 ≤ loads.length) :
    ∃ a b, findTwoMinIdx loads = (some a, some b) := by
  obtain ⟨m1, m2, hinv⟩ := findTwoMinIdx_scanInv loads
  rcases hi : (findTwoMinIdx loads).1 with _ | a
  · rcases hj : (findTwoMinIdx loads).2 with _ | b
    · rw [hi, hj] at hinv
      obtain ⟨rfl, -, -⟩ := hinv
      simp at h2
    · rw [hi, hj] at hinv
      exact absurd hinv not_false
  · rcases hj : (findTwoMinIdx loads).2 with _ | b
    · rw [hi, hj] at hinv
      obtain ⟨hL, -, -, -⟩ := hinv
      omega
    · exact ⟨a, b, by rw [← hi, ← hj]⟩

/-! ## C4 and C10: the fleet-reduction loop -/

lemma fleetAux_stop (cap : ℚ) (numV fuel : ℕ) (routes : List (List ℕ)) (loads : List ℚ)
    (h : routes.length ≤ numV) :
    fleetAux cap numV fuel routes loads = (routes, loads) := by
  cases fuel with
  | zero => rfl
  | succ m =>
    unfold fleetAux
    rw [if_neg (not_lt.mpr h)]

lemma fleetAux_merge_step (cap : ℚ) (numV fuel : ℕ) (routes : List (List ℕ))
    (loads : List ℚ) (a b : ℕ) (hgt : numV < routes.length)
    (hfind : findTwoMinIdx loads = (some a, some b))
    (hcap : loads.getD a 0 + loads.getD b 0 ≤ cap) :
    fleetAux cap numV (fuel + 1) routes loads
      = fleetAux cap numV fuel
          ((routes.set a (routes.getD a [] ++ routes.getD b [])).eraseIdx b)
          ((loads.set a (loads.getD a 0 + loads.getD b 0)).eraseIdx b) := by
  conv_lhs => rw [fleetAux]
  rw [if_pos hgt, hfind]
  simp only
  rw [if_pos hcap]

lemma fleetAux_break (cap : ℚ) (numV fuel : ℕ) (routes : List (List ℕ))
    (loads : List ℚ) (a b : ℕ) (hgt : numV < routes.length)
    (hfind : findTwoMinIdx loads = (some a, some b))
    (hover : cap < loads.getD a 0 + loads.getD b 0) :
    fleetAux cap numV (fuel + 1) routes loads = (routes, loads) := by
  unfold fleetAux
  rw [if_pos hgt, hfind]
  simp only
  rw [if_neg (not_le.mpr hover)]

lemma fleetAux_no_second (cap : ℚ) (numV fuel : ℕ) (routes : List (List ℕ))
    (loads : List ℚ) (o1 : Option ℕ) (hgt : numV < routes.length)
    (hfind : findTwoMinIdx loads = (o1, none)) :
    fleetAux cap numV (fuel + 1) routes loads = (routes, loads) := by
  unfold fleetAux
  rw [if_pos hgt, hfind]
  cases o1 <;> rfl

lemma fleetAux_no_first (cap : ℚ) (numV fuel : ℕ) (routes : List (List ℕ))
    (loads : List ℚ) (o2 : Option ℕ) (hgt : numV < routes.length)
    (hfind : findTwoMinIdx loads = (none, o2)) :
    fleetAux cap numV (fuel + 1) routes loads = (routes, loads) := by
  unfold fleetAux
  rw [if_pos hgt, hfind]

/-- C4: when the greedy pass leaves more routes than the requested
vehicle count, each iteration of the fleet-reduction loop selects the
two routes with the smallest current loads (ties broken by list order,
witnessed by `FirstMin`/`SecondMin`), merges them by plain concatenation
when their combined load is at most capacity, and otherwise stops with
the route list unchanged — leaving the route count above the ceiling as
an observable property, with no exception; with the count at or below
the ceiling, the pass returns its input unchanged. -/
theorem fleet_reduction_spec (cap : ℚ) (numV : ℕ) (routes : List (List ℕ))
    (loads : List ℚ) (hlen : routes.length = loads.length) (hv : 1 ≤ numV) :
    (routes.length ≤ numV → fleetReduce cap numV routes loads = (routes, loads)) ∧
    (numV < routes.length → ∃ a b, findTwoMinIdx loads = (some a, some b) ∧
      FirstMin loads a ∧ SecondMin loads a b ∧
      (loads.getD a 0 + loads.getD b 0 ≤ cap →
        fleetReduce cap numV routes loads =
          fleetReduce cap numV
            ((routes.set a (routes.getD a [] ++ routes.getD b [])).eraseIdx b)
            ((loads.set a (loads.getD a 0 + loads.getD b 0)).eraseIdx b)) ∧
      (cap < loads.getD a 0 + loads.getD b 0 →
        fleetReduce cap numV routes loads = (routes, loads))) := by
  refine ⟨fun h => fleetAux_stop cap numV routes.length routes loads h, fun hgt => ?_⟩
  have h2 : 2 ≤ loads.length := by omega
  obtain ⟨a, b, hfind⟩ := findTwoMinIdx_of_two loads h2
  obtain ⟨hFM, hSM⟩ := findTwoMinIdx_some_spec loads a b hfind
  have hb : b < routes.length := by
    have := hSM.1
    omega
  refine ⟨a, b, hfind, hFM, hSM, fun hcap => ?_, fun hover => ?_⟩
  · have hlen' : ((routes.set a (routes.getD a [] ++ routes.getD b [])).eraseIdx b).length
        = routes.length - 1 := by
      rw [List.length_eraseIdx_of_lt (by rw [List.length_set]; exact hb), List.length_set]
    unfold fleetReduce
    rw [hlen']
    have hR : routes.length = (routes.length - 1) + 1 := by omega
    conv_lhs => rw [hR]
    rw [fleetAux_merge_step cap numV (routes.length - 1) routes loads a b hgt hfind hcap]
  · unfold fleetReduce
    have hR : routes.length = (routes.length - 1) + 1 := by omega
    rw [hR]
    exact fleetAux_break cap numV (routes.length - 1) routes loads a b hgt hfind hover

theorem fleet_reduction_spec_witness :
    fleetReduce 0 1 [[1], [2]] [(0 : ℚ), 1] = ([[1], [2]], [(0 : ℚ), 1]) := by
  obtain ⟨a, b, hfind, -, -, -, hbreak⟩ :=
    (fleet_reduction_spec 0 1 [[1], [2]] [(0 : ℚ), 1] (by decide) (by decide)).2
      (by decide)
  have hab : findTwoMinIdx [(0 : ℚ), 1] = (some 0, some 1) := by decide
  rw [hab] at hfind
  simp only [Prod.mk.injEq, Option.some.injEq] at hfind
  obtain ⟨rfl, rfl⟩ := hfind
  refine hbreak ?_
  show (0 : ℚ) < 0 + 1
  rw [zero_add]
  exact one_pos

lemma fleetAux_fuel_sufficient (cap : ℚ) (numV : ℕ) :
    ∀ (fuel : ℕ) (routes : List (List ℕ)) (loads : List ℚ),
      routes.length = loads.length → routes.length - numV ≤ fuel →
      fleetAux cap numV fuel routes loads = fleetReduce cap numV routes loads := by
  intro fuel
  induction fuel with
  | zero =>
    intro routes loads hlen hf
    have h : routes.length ≤ numV := by omega
    rw [fleetAux_stop cap numV 0 routes loads h]
    unfold fleetReduce
    rw [fleetAux_stop cap numV routes.length routes loads h]
  | succ m ih =>
    intro routes loads hlen hf
    by_cases hgt : numV < routes.length
    · have hR : routes.length = (routes.length - 1) + 1 := by omega
      rcases hfind : findTwoMinIdx loads with ⟨o1, o2⟩
      rcases o1 with _ | a
      · rw [fleetAux_no_first cap numV m routes loads o2 hgt hfind]
        unfold fleetReduce
        rw [hR, fleetAux_no_first cap numV (routes.length - 1) routes loads o2 hgt hfind]
      · rcases o2 with _ | b
        · rw [fleetAux_no_second cap numV m routes loads (some a) hgt hfind]
          unfold fleetReduce
          rw [hR, fleetAux_no_second cap numV (routes.length - 1) routes loads (some a)
            hgt hfind]
        · obtain ⟨hFM, hSM⟩ := findTwoMinIdx_some_spec loads a b hfind
          have hb : b < routes.length := by
            have := hSM.1
            omega
          by_cases hcap : loads.getD a 0 + loads.getD b 0 ≤ cap
          · have hlen' :
                ((routes.set a (routes.getD a [] ++ routes.getD b [])).eraseIdx b).length
                  = routes.length - 1 := by
              rw [List.length_eraseIdx_of_lt (by rw [List.length_set]; exact hb),
                List.length_set]
            have hlen'2 :
                ((loads.set a (loads.getD a 0 + loads.getD b 0)).eraseIdx b).length
                  = loads.length - 1 := by
              rw [List.length_eraseIdx_of_lt (by rw [List.length_set]; omega),
                List.length_set]
            rw [fleetAux_merge_step cap numV m routes loads a b hgt hfind hcap]
            rw [ih _ _ (by omega) (by omega)]
            unfold fleetReduce
            rw [hR, fleetAux_merge_step cap numV (routes.length - 1) routes loads a b
              hgt hfind hcap]
            rw [hlen']
          · have hover : cap < loads.getD a 0 + loads.getD b 0 := not_le.mp hcap
            rw [fleetAux_break cap numV m routes loads a b hgt hfind hover]
            unfold fleetReduce
            rw [hR, fleetAux_break cap numV (routes.length - 1) routes loads a b
              hgt hfind hover]
    · have h : routes.length ≤ numV := not_lt.mp hgt
      rw [fleetAux_stop cap numV (m + 1) routes loads h]
      unfold fleetReduce
      rw [fleetAux_stop cap numV routes.length routes loads h]

/-- C10: the fleet-reduction while-loop terminates for every input:
each iteration either merges two routes (strictly decreasing the route
count) or breaks, so `routes.length - 1` loop iterations always suffice
— running the fuelled loop with any fuel of at least `routes.length - 1`
gives the same result as the loop itself. -/
theorem fleet_reduction_terminates (cap : ℚ) (numV : ℕ) (routes : List (List ℕ))
    (loads : List ℚ) (fuel : ℕ) (hlen : routes.length = loads.length)
    (hv : 1 ≤ numV) (hfuel : routes.length - 1 ≤ fuel) :
    fleetAux cap numV fuel routes loads = fleetReduce cap numV routes loads :=
  fleetAux_fuel_sufficient cap numV fuel routes loads hlen (by omega)

theorem fleet_reduction_terminates_witness :
    fleetAux 0 1 1 [[1], [2]] [(0 : ℚ), 1] = fleetReduce 0 1 [[1], [2]] [(0 : ℚ), 1] :=
  fleet_reduction_terminates 0 1 [[1], [2]] [(0 : ℚ), 1] 1 (by decide) (by decide)
    (by decide)

/-! ## Multiset and zip plumbing for C1 and C2 -/

/-- The multiset of customers across all route slots. -/
def routesMS (rs : List (List ℕ)) : Multiset ℕ :=
  (rs.map fun r => (r : Multiset ℕ)).sum

lemma routesMS_nil : routesMS [] = 0 := rfl

lemma routesMS_cons (r : List ℕ) (rs : List (List ℕ)) :
    routesMS (r :: rs) = (r : Multiset ℕ) + routesMS rs := by
  simp [routesMS]

lemma routesMS_set : ∀ (rs : List (List ℕ)) (i : ℕ) (a : List ℕ), i < rs.length →
    routesMS (rs.set i a) + (rs.getD i [] : Multiset ℕ) = routesMS rs + (a : Multiset ℕ)
  | [], i, a, h => by simp at h
  | r :: rs, 0, a, _ => by
    simp only [List.set_cons_zero, routesMS_cons, List.getD_cons_zero]
    abel
  | r :: rs, i + 1, a, h => by
    simp only [List.set_cons_succ, routesMS_cons, List.getD_cons_succ]
    have := routesMS_set rs i a (by simpa using h)
    rw [add_assoc, this, ← add_assoc]

lemma routesMS_eraseIdx : ∀ (rs : List (List ℕ)) (i : ℕ), i < rs.length →
    routesMS (rs.eraseIdx i) + (rs.getD i [] : Multiset ℕ) = routesMS rs
  | [], i, h => by simp at h
  | r :: rs, 0, _ => by
    simp only [List.eraseIdx_cons_zero, List.getD_cons_zero, routesMS_cons]
    exact add_comm _ _
  | r :: rs, i + 1, h => by
    simp only [List.eraseIdx_cons_succ, List.getD_cons_succ, routesMS_cons]
    have := routesMS_eraseIdx rs i (by simpa using h)
    rw [add_assoc, this]

lemma routesMS_eq_flatten : ∀ rs : List (List ℕ), routesMS rs = (rs.flatten : Multiset ℕ)
  | [] => rfl
  | r :: rs => by
    rw [routesMS_cons, routesMS_eq_flatten rs, List.flatten_cons]
    exact_mod_cast (Multiset.coe_add r rs.flatten).symm

lemma coe_ms_append (l m : List ℕ) :
    ((l ++ m : List ℕ) : Multiset ℕ) = (l : Multiset ℕ) + (m : Multiset ℕ) :=
  (Multiset.coe_add l m).symm

lemma coe_ms_reverse (l : List ℕ) : ((l.reverse : List ℕ) : Multiset ℕ) = (l : Multiset ℕ) :=
  Multiset.coe_eq_coe.mpr (List.reverse_perm l)

lemma crGet_mem (cr : List ℕ) (c r : ℕ) (h : crGet cr c = some r) : r ∈ cr := by
  unfold crGet at h
  split at h
  · cases h
  · exact List.getElem?_mem h

lemma foldl_crSet_bound (n ri : ℕ) (hri : ri < n) :
    ∀ (nr cr : List ℕ), (∀ r ∈ cr, r < n) →
      ∀ r ∈ nr.foldl (fun cr c => crSet cr c ri) cr, r < n := by
  intro nr
  induction nr with
  | nil => intro cr hcr r hr; exact hcr r hr
  | cons c nr ih =>
    intro cr hcr r hr
    refine ih (crSet cr c ri) ?_ r hr
    intro x hx
    unfold crSet at hx
    split at hx
    · exact hcr x hx
    · rcases List.mem_or_eq_of_mem_set hx with hx | rfl
      · exact hcr x hx
      · exact hri

lemma zip_set {β γ : Type} :
    ∀ (l1 : List β) (l2 : List γ) (i : ℕ) (a : β) (b : γ),
      (l1.set i a).zip (l2.set i b) = (l1.zip l2).set i (a, b)
  | [], l2, i, a, b => by simp
  | x :: xs, [], i, a, b => by cases i <;> simp
  | x :: xs, y :: ys, 0, a, b => by simp
  | x :: xs, y :: ys, i + 1, a, b => by
    simp only [List.set_cons_succ, List.zip_cons_cons]
    rw [zip_set xs ys i a b]

lemma zip_eraseIdx {β γ : Type} :
    ∀ (l1 : List β) (l2 : List γ) (i : ℕ),
      (l1.eraseIdx i).zip (l2.eraseIdx i) = (l1.zip l2).eraseIdx i
  | [], l2, i => by simp
  | x :: xs, [], i => by
    cases i <;> simp [List.eraseIdx_cons_zero, List.eraseIdx_cons_succ]
  | x :: xs, y :: ys, 0 => by simp
  | x :: xs, y :: ys, i + 1 => by
    simp only [List.eraseIdx_cons_succ, List.zip_cons_cons]
    rw [zip_eraseIdx xs ys i]

lemma getD_mem_zip {β γ : Type} (d1 : β) (d2 : γ) :
    ∀ (l1 : List β) (l2 : List γ) (k : ℕ), k < l1.length → k < l2.length →
      (l1.getD k d1, l2.getD k d2) ∈ l1.zip l2
  | [], _, k, h1, _ => by simp at h1
  | _ :: _, [], k, _, h2 => by simp at h2
  | x :: xs, y :: ys, 0, _, _ => by simp
  | x :: xs, y :: ys, k + 1, h1, h2 => by
    simp only [List.getD_cons_succ, List.zip_cons_cons, List.mem_cons]
    exact Or.inr (getD_mem_zip d1 d2 xs ys k (by simpa using h1) (by simpa using h2))

lemma mem_zip_index {β γ : Type} (d1 : β) (d2 : γ) :
    ∀ (l1 : List β) (l2 : List γ) (p : β × γ), p ∈ l1.zip l2 →
      ∃ k, k < l1.length ∧ k < l2.length ∧ l1.getD k d1 = p.1 ∧ l2.getD k d2 = p.2
  | [], l2, p, h => by simp at h
  | x :: xs, [], p, h => by simp at h
  | x :: xs, y :: ys, p, h => by
    rcases List.mem_cons.mp h with rfl | h
    · exact ⟨0, by simp, by simp, rfl, rfl⟩
    · obtain ⟨k, hk1, hk2, he1, he2⟩ := mem_zip_index d1 d2 xs ys p h
      exact ⟨k + 1, by simpa using hk1, by simpa using hk2, he1, he2⟩

lemma zip_unzip_maps {β γ : Type} (z : List (β × γ)) :
    (z.map Prod.fst).zip (z.map Prod.snd) = z := by
  induction z with
  | nil => rfl
  | cons p z ih => simp [ih]

/-- Per-route demand sum: the load of a route as the spec defines it. -/
def demandSum (demands : List ℚ) (r : List ℕ) : ℚ :=
  (r.map fun c => demands.getD (c - 1) 0).sum

lemma demandSum_append (demands : List ℚ) (l m : List ℕ) :
    demandSum demands (l ++ m) = demandSum demands l + demandSum demands m := by
  simp [demandSum]

lemma demandSum_perm (demands : List ℚ) {l m : List ℕ} (h : l.Perm m) :
    demandSum demands l = demandSum demands m :=
  (h.map fun c => demands.getD (c - 1) 0).sum_eq

/-! ## Merge-pass invariant -/

/-- Every call of `mergeStep` either is a skip (state unchanged) or
performs a merge: two distinct slots obtained from the customer dict,
the capacity guard passed, and the new route holds exactly the
customers of the two merged routes. -/
lemma mergeStep_cases (cap : ℚ) (st : MergeState) (sij : ℚ × ℕ × ℕ) :
    mergeStep cap st sij = st ∨
    ∃ (ri rj : ℕ) (newRoute : List ℕ),
      crGet st.custRoute sij.2.1 = some ri ∧
      crGet st.custRoute sij.2.2 = some rj ∧
      ri ≠ rj ∧
      st.loads.getD ri 0 + st.loads.getD rj 0 ≤ cap ∧
      (newRoute : Multiset ℕ)
        = (st.routes.getD ri [] : Multiset ℕ) + (st.routes.getD rj [] : Multiset ℕ) ∧
      mergeStep cap st sij =
        { routes := (st.routes.set ri newRoute).set rj []
          loads := (st.loads.set ri (st.loads.getD ri 0 + st.loads.getD rj 0)).set rj 0
          custRoute := newRoute.foldl (fun cr c => crSet cr c ri) st.custRoute } := by
  obtain ⟨s, i, j⟩ := sij
  by_cases hs : s ≤ 0
  · exact Or.inl (mergeStep_nonpos cap st (s, i, j) hs)
  unfold mergeStep
  simp only
  rw [if_neg hs]
  rcases hi : crGet st.custRoute i with _ | ri
  · exact Or.inl rfl
  rcases hj : crGet st.custRoute j with _ | rj
  · exact Or.inl rfl
  simp only
  by_cases hij : ri = rj
  · rw [if_pos hij]
    exact Or.inl rfl
  rw [if_neg hij]
  by_cases hE : ((st.routes.getD ri []).head? = some i ∨
      (st.routes.getD ri []).getLast? = some i) ∧
      ((st.routes.getD rj []).head? = some j ∨ (st.routes.getD rj []).getLast? = some j)
  · rw [if_neg (not_not_intro hE)]
    by_cases hc : cap < st.loads.getD ri 0 + st.loads.getD rj 0
    · rw [if_pos hc]
      exact Or.inl rfl
    · rw [if_neg hc]
      by_cases c1 : (st.routes.getD ri []).getLast? = some i ∧
          (st.routes.getD rj []).head? = some j
      · rw [if_pos c1]
        exact Or.inr ⟨ri, rj, _, rfl, rfl, hij, not_lt.mp hc,
          coe_ms_append _ _, rfl⟩
      rw [if_neg c1]
      by_cases c2 : (st.routes.getD ri []).head? = some i ∧
          (st.routes.getD rj []).getLast? = some j
      · rw [if_pos c2]
        refine Or.inr ⟨ri, rj, _, rfl, rfl, hij, not_lt.mp hc, ?_, rfl⟩
        rw [coe_ms_append]
        exact add_comm _ _
      rw [if_neg c2]
      by_cases c3 : (st.routes.getD ri []).getLast? = some i ∧
          (st.routes.getD rj []).getLast? = some j
      · rw [if_pos c3]
        refine Or.inr ⟨ri, rj, _, rfl, rfl, hij, not_lt.mp hc, ?_, rfl⟩
        rw [coe_ms_append, coe_ms_reverse]
      rw [if_neg c3]
      by_cases c4 : (st.routes.getD ri []).head? = some i ∧
          (st.routes.getD rj []).head? = some j
      · rw [if_pos c4]
        refine Or.inr ⟨ri, rj, _, rfl, rfl, hij, not_lt.mp hc, ?_, rfl⟩
        rw [coe_ms_append, coe_ms_reverse]
      · rw [if_neg c4]
        exact Or.inl rfl
  · rw [if_pos hE]
    exact Or.inl rfl

/-- The loop invariant of the greedy merge pass: slot counts are fixed
at `n`, the multiset of customers across slots is exactly `{1..n}`, the
customer dict points into the slot range, every slot load is the demand
sum of its route, and every nonempty slot is within capacity or is an
over-capacity singleton. -/
def MergeInv (cap : ℚ) (demands : List ℚ) (n : ℕ) (st : MergeState) : Prop :=
  st.routes.length = n ∧ st.loads.length = n ∧
  routesMS st.routes = ((List.range' 1 n : List ℕ) : Multiset ℕ) ∧
  (∀ r ∈ st.custRoute, r < n) ∧
  (∀ k, k < n → st.loads.getD k 0 = demandSum demands (st.routes.getD k []) ∧
    (st.routes.getD k [] ≠ [] →
      st.loads.getD k 0 ≤ cap ∨
        ∃ c, st.routes.getD k [] = [c] ∧ cap < demands.getD (c - 1) 0))

lemma mergeStep_inv (cap : ℚ) (demands : List ℚ) (n : ℕ) (st : MergeState)
    (sij : ℚ × ℕ × ℕ) (h : MergeInv cap demands n st) :
    MergeInv cap demands n (mergeStep cap st sij) := by
  rcases mergeStep_cases cap st sij with heq | ⟨ri, rj, nr, hi, hj, hij, hcap, hnr, heq⟩
  · rw [heq]
    exact h
  rw [heq]
  obtain ⟨hlr, hll, hms, hcr, hk⟩ := h
  have hriB : ri < n := hcr ri (crGet_mem _ _ _ hi)
  have hrjB : rj < n := hcr rj (crGet_mem _ _ _ hj)
  have hperm : nr.Perm (st.routes.getD ri [] ++ st.routes.getD rj []) :=
    Multiset.coe_eq_coe.mp (hnr.trans (coe_ms_append _ _).symm)
  refine ⟨by simp [hlr], by simp [hll], ?_, ?_, ?_⟩
  · have e1 := routesMS_set st.routes ri nr (by omega)
    have e2 := routesMS_set (st.routes.set ri nr) rj [] (by simpa using by omega)
    rw [getD_set_ne st.routes nr [] hij] at e2
    have e0 : (([] : List ℕ) : Multiset ℕ) = 0 := rfl
    rw [e0, add_zero] at e2
    have : routesMS ((st.routes.set ri nr).set rj [])
        + (st.routes.getD rj [] : Multiset ℕ) + (st.routes.getD ri [] : Multiset ℕ)
        = routesMS st.routes + (st.routes.getD ri [] : Multiset ℕ)
          + (st.routes.getD rj [] : Multiset ℕ) := by
      rw [e2]
      rw [add_right_comm, e1, hnr]
      abel
    have hcancel : routesMS ((st.routes.set ri nr).set rj []) = routesMS st.routes := by
      have h2 := this
      rw [add_right_comm (routesMS st.routes) _ _] at h2
      exact add_right_cancel (add_right_cancel h2)
    rw [hcancel, hms]
  · intro r hr
    exact foldl_crSet_bound n ri hriB nr st.custRoute hcr r hr
  · intro k hkn
    by_cases hkr : k = rj
    · subst hkr
      have hg1 : ((st.routes.set ri nr).set k []).getD k [] = [] :=
        getD_set_self _ _ _ _ (by simpa [hlr] using hrjB)
      have hg2 : ((st.loads.set ri (st.loads.getD ri 0 + st.loads.getD k 0)).set k 0).getD
          k 0 = 0 := getD_set_self _ _ _ _ (by simpa [hll] using hrjB)
      rw [hg1, hg2]
      exact ⟨by simp [demandSum], fun hcontra => absurd rfl hcontra⟩
    · by_cases hki : k = ri
      · subst hki
        have hg1 : ((st.routes.set k nr).set rj []).getD k []
            = (st.routes.set k nr).getD k [] :=
          getD_set_ne _ _ _ fun hcontra => hkr hcontra.symm
        have hg1b : (st.routes.set k nr).getD k [] = nr :=
          getD_set_self _ _ _ _ (by omega)
        have hg2 : ((st.loads.set k (st.loads.getD k 0 + st.loads.getD rj 0)).set rj 0).getD
            k 0 = (st.loads.set k (st.loads.getD k 0 + st.loads.getD rj 0)).getD k 0 :=
          getD_set_ne _ _ _ fun hcontra => hkr hcontra.symm
        have hg2b : (st.loads.set k (st.loads.getD k 0 + st.loads.getD rj 0)).getD k 0
            = st.loads.getD k 0 + st.loads.getD rj 0 :=
          getD_set_self _ _ _ _ (by omega)
        rw [hg1, hg1b, hg2, hg2b]
        constructor
        · rw [demandSum_perm demands hperm, demandSum_append,
            ← (hk k hkn).1, ← (hk rj hrjB).1]
        · intro _
          exact Or.inl hcap
      · have hg1 : ((st.routes.set ri nr).set rj []).getD k []
            = st.routes.getD k [] := by
          rw [getD_set_ne _ _ _ fun hcontra => hkr hcontra.symm,
            getD_set_ne _ _ _ fun hcontra => hki hcontra.symm]
        have hg2 : ((st.loads.set ri (st.loads.getD ri 0 + st.loads.getD rj 0)).set
            rj 0).getD k 0 = st.loads.getD k 0 := by
          rw [getD_set_ne _ _ _ fun hcontra => hkr hcontra.symm,
            getD_set_ne _ _ _ fun hcontra => hki hcontra.symm]
        rw [hg1, hg2]
        exact hk k hkn

lemma foldl_mergeStep_inv (cap : ℚ) (demands : List ℚ) (n : ℕ) :
    ∀ (savings : List (ℚ × ℕ × ℕ)) (st : MergeState), MergeInv cap demands n st →
      MergeInv cap demands n (savings.foldl (mergeStep cap) st)
  | [], _, h => h
  | sij :: rest, st, h =>
    foldl_mergeStep_inv cap demands n rest (mergeStep cap st sij)
      (mergeStep_inv cap demands n st sij h)

lemma range_map_singleton_flatten :
    ∀ n : ℕ, ((List.range n).map fun i => [i + 1]).flatten = List.range' 1 n
  | 0 => rfl
  | n + 1 => by
    rw [List.range_succ, List.map_append, List.flatten_append,
      range_map_singleton_flatten n, range'_one_concat n 1]
    simp [Nat.add_comm]

lemma init_mergeInv (cap : ℚ) (demands : List ℚ) (n : ℕ) :
    MergeInv cap demands n
      { routes := (List.range n).map fun i => [i + 1]
        loads := (List.range n).map fun i => demands.getD i 0
        custRoute := List.range n } := by
  refine ⟨by simp, by simp, ?_, ?_, ?_⟩
  · rw [routesMS_eq_flatten]
    simp only
    rw [range_map_singleton_flatten n]
  · intro r hr
    simpa using List.mem_range.mp hr
  · intro k hkn
    have h1 : ((List.range n).map fun i => [i + 1]).getD k [] = [k + 1] :=
      getD_map_range n _ k [] hkn
    have h2 : ((List.range n).map fun i => demands.getD i 0).getD k 0
        = demands.getD k 0 := getD_map_range n _ k 0 hkn
    simp only
    rw [h1, h2]
    refine ⟨by simp [demandSum], fun _ => ?_⟩
    by_cases hd : demands.getD k 0 ≤ cap
    · exact Or.inl hd
    · exact Or.inr ⟨k + 1, rfl, by simpa using not_le.mp hd⟩

/-! ## Filter and fleet-pass invariants -/

lemma filterNonEmpty_zip (routes : List (List ℕ)) (loads : List ℚ) :
    (filterNonEmpty routes loads).1.zip (filterNonEmpty routes loads).2
      = (routes.zip loads).filter fun p => ¬p.1.isEmpty := by
  unfold filterNonEmpty
  exact zip_unzip_maps _

lemma filterNonEmpty_length (routes : List (List ℕ)) (loads : List ℚ) :
    (filterNonEmpty routes loads).1.length = (filterNonEmpty routes loads).2.length := by
  simp [filterNonEmpty]

lemma filterNonEmpty_ms :
    ∀ (routes : List (List ℕ)) (loads : List ℚ), routes.length = loads.length →
      routesMS (filterNonEmpty routes loads).1 = routesMS routes
  | [], loads, _ => rfl
  | r :: routes, [], h => by simp at h
  | r :: routes, l :: loads, h => by
    have ih := filterNonEmpty_ms routes loads (by simpa using h)
    unfold filterNonEmpty at ih ⊢
    simp only at ih ⊢
    simp only [List.zip_cons_cons, List.filter_cons]
    by_cases hE : r = []
    · subst hE
      rw [if_neg (by simp)]
      rw [routesMS_cons]
      simpa using ih
    · rw [if_pos (by simp [List.isEmpty_iff, hE])]
      simp only [List.map_cons, routesMS_cons]
      rw [ih]

/-- Invariant of the fleet-reduction pass: the two lists stay aligned,
every load equals the demand sum of its route, and every route is within
capacity or is an over-capacity singleton. -/
def FleetInv (cap : ℚ) (demands : List ℚ) (routes : List (List ℕ)) (loads : List ℚ) :
    Prop :=
  routes.length = loads.length ∧
  ∀ p ∈ routes.zip loads, p.2 = demandSum demands p.1 ∧
    (p.2 ≤ cap ∨ ∃ c, p.1 = [c] ∧ cap < demands.getD (c - 1) 0)

lemma filterNonEmpty_fleetInv (cap : ℚ) (demands : List ℚ) (n : ℕ) (st : MergeState)
    (h : MergeInv cap demands n st) :
    FleetInv cap demands (filterNonEmpty st.routes st.loads).1
      (filterNonEmpty st.routes st.loads).2 := by
  obtain ⟨hlr, hll, -, -, hk⟩ := h
  refine ⟨filterNonEmpty_length _ _, ?_⟩
  intro p hp
  rw [filterNonEmpty_zip] at hp
  have hmem := List.mem_filter.mp hp
  obtain ⟨k, hk1, hk2, he1, he2⟩ := mem_zip_index [] 0 st.routes st.loads p hmem.1
  have hkn : k < n := hlr ▸ hk1
  obtain ⟨hload, hcapk⟩ := hk k hkn
  have hne : p.1 ≠ [] := by
    intro hcontra
    have h2 := hmem.2
    rw [hcontra] at h2
    simp at h2
  have hne2 : st.routes.getD k [] ≠ [] := he1.symm ▸ hne
  constructor
  · rw [← he2, ← he1]
    exact hload
  · rcases hcapk hne2 with hle | ⟨c, hc1, hc2⟩
    · exact Or.inl (by rw [← he2]; exact hle)
    · exact Or.inr ⟨c, by rw [← he1]; exact hc1, hc2⟩

lemma add_cancel2 {M : Type} [AddCancelCommMonoid M] (x y a b : M)
    (h : x + a + b = y + a + b) : x = y :=
  add_right_cancel (add_right_cancel h)

lemma fleetAux_inv (cap : ℚ) (demands : List ℚ) (numV : ℕ) :
    ∀ (fuel : ℕ) (routes : List (List ℕ)) (loads : List ℚ),
      FleetInv cap demands routes loads →
      FleetInv cap demands (fleetAux cap numV fuel routes loads).1
          (fleetAux cap numV fuel routes loads).2 ∧
      routesMS (fleetAux cap numV fuel routes loads).1 = routesMS routes := by
  intro fuel
  induction fuel with
  | zero =>
    intro routes loads h
    exact ⟨h, rfl⟩
  | succ m ih =>
    intro routes loads h
    by_cases hgt : numV < routes.length
    · rcases hfind : findTwoMinIdx loads with ⟨o1, o2⟩
      rcases o1 with _ | a
      · rw [fleetAux_no_first cap numV m routes loads o2 hgt hfind]
        exact ⟨h, rfl⟩
      rcases o2 with _ | b
      · rw [fleetAux_no_second cap numV m routes loads (some a) hgt hfind]
        exact ⟨h, rfl⟩
      obtain ⟨hFM, hSM⟩ := findTwoMinIdx_some_spec loads a b hfind
      have haL : a < loads.length := hFM.1
      have hbL : b < loads.length := hSM.1
      have hba : b ≠ a := hSM.2.1
      obtain ⟨hlen, hall⟩ := h
      by_cases hcap : loads.getD a 0 + loads.getD b 0 ≤ cap
      · rw [fleetAux_merge_step cap numV m routes loads a b hgt hfind hcap]
        have hpa : loads.getD a 0 = demandSum demands (routes.getD a []) :=
          (hall _ (getD_mem_zip [] 0 routes loads a (by omega) haL)).1
        have hpb : loads.getD b 0 = demandSum demands (routes.getD b []) :=
          (hall _ (getD_mem_zip [] 0 routes loads b (by omega) hbL)).1
        have hFI : FleetInv cap demands
            ((routes.set a (routes.getD a [] ++ routes.getD b [])).eraseIdx b)
            ((loads.set a (loads.getD a 0 + loads.getD b 0)).eraseIdx b) := by
          constructor
          · rw [List.length_eraseIdx_of_lt (by rw [List.length_set]; omega),
              List.length_eraseIdx_of_lt (by rw [List.length_set]; omega),
              List.length_set, List.length_set, hlen]
          · intro p hp
            rw [zip_eraseIdx, zip_set] at hp
            have hp2 := List.mem_of_mem_eraseIdx hp
            rcases List.mem_or_eq_of_mem_set hp2 with hp3 | rfl
            · exact hall p hp3
            · constructor
              · show loads.getD a 0 + loads.getD b 0
                  = demandSum demands (routes.getD a [] ++ routes.getD b [])
                rw [demandSum_append, ← hpa, ← hpb]
              · exact Or.inl hcap
        have hres := ih _ _ hFI
        refine ⟨hres.1, ?_⟩
        rw [hres.2]
        have e1 := routesMS_set routes a (routes.getD a [] ++ routes.getD b [])
          (by omega)
        have e2 := routesMS_eraseIdx
          (routes.set a (routes.getD a [] ++ routes.getD b [])) b
          (by rw [List.length_set]; omega)
        rw [getD_set_ne routes _ _ fun hc => hba hc.symm] at e2
        refine add_cancel2 _ _ (routes.getD b [] : Multiset ℕ)
          (routes.getD a [] : Multiset ℕ) ?_
        calc routesMS ((routes.set a (routes.getD a [] ++ routes.getD b [])).eraseIdx b)
              + (routes.getD b [] : Multiset ℕ) + (routes.getD a [] : Multiset ℕ)
            = routesMS (routes.set a (routes.getD a [] ++ routes.getD b []))
              + (routes.getD a [] : Multiset ℕ) := by rw [e2]
          _ = routesMS routes
              + ((routes.getD a [] ++ routes.getD b [] : List ℕ) : Multiset ℕ) := e1
          _ = routesMS routes + (routes.getD b [] : Multiset ℕ)
              + (routes.getD a [] : Multiset ℕ) := by
              rw [coe_ms_append]
              abel
      · rw [fleetAux_break cap numV m routes loads a b hgt hfind (not_le.mp hcap)]
        exact ⟨⟨hlen, hall⟩, rfl⟩
    · rw [fleetAux_stop cap numV (m + 1) routes loads (not_lt.mp hgt)]
      exact ⟨h, rfl⟩

/-- Combined pipeline invariant: after the merge fold, the non-empty
filter and the fleet-reduction pass, the customers across routes are
exactly `{1..n}` and the per-route load facts hold. -/
lemma pipeline_inv (cap : ℚ) (demands : List ℚ) (numV n : ℕ)
    (savings : List (ℚ × ℕ × ℕ)) (st : MergeState) (h : MergeInv cap demands n st) :
    routesMS (fleetReduce cap numV
        (filterNonEmpty (savings.foldl (mergeStep cap) st).routes
          (savings.foldl (mergeStep cap) st).loads).1
        (filterNonEmpty (savings.foldl (mergeStep cap) st).routes
          (savings.foldl (mergeStep cap) st).loads).2).1
      = ((List.range' 1 n : List ℕ) : Multiset ℕ) ∧
    FleetInv cap demands
      (fleetReduce cap numV
        (filterNonEmpty (savings.foldl (mergeStep cap) st).routes
          (savings.foldl (mergeStep cap) st).loads).1
        (filterNonEmpty (savings.foldl (mergeStep cap) st).routes
          (savings.foldl (mergeStep cap) st).loads).2).1
      (fleetReduce cap numV
        (filterNonEmpty (savings.foldl (mergeStep cap) st).routes
          (savings.foldl (mergeStep cap) st).loads).1
        (filterNonEmpty (savings.foldl (mergeStep cap) st).routes
          (savings.foldl (mergeStep cap) st).loads).2).2 := by
  have hfold := foldl_mergeStep_inv cap demands n savings st h
  have hFI := filterNonEmpty_fleetInv cap demands n _ hfold
  have hms2 := filterNonEmpty_ms _ _ (hfold.1.trans hfold.2.1.symm)
  have hfleet := fleetAux_inv cap demands numV
    (filterNonEmpty (savings.foldl (mergeStep cap) st).routes
      (savings.foldl (mergeStep cap) st).loads).1.length _ _ hFI
  exact ⟨hfleet.2.trans (hms2.trans hfold.2.2.1), hfleet.1⟩

lemma mem_index {β : Type} (d : β) :
    ∀ (l : List β) (x : β), x ∈ l → ∃ k, k < l.length ∧ l.getD k d = x
  | [], x, h => absurd h (List.not_mem_nil x)
  | y :: ys, x, h => by
    rcases List.mem_cons.mp h with rfl | h
    · exact ⟨0, by simp, rfl⟩
    · obtain ⟨k, hk, he⟩ := mem_index d ys x h
      exact ⟨k + 1, by simpa using hk, he⟩

lemma fleetInv_routes (cap : ℚ) (demands : List ℚ) (routes : List (List ℕ))
    (loads : List ℚ) (h : FleetInv cap demands routes loads) :
    ∀ r ∈ routes, demandSum demands r ≤ cap ∨
      ∃ c, r = [c] ∧ cap < demands.getD (c - 1) 0 := by
  intro r hr
  obtain ⟨hlen, hall⟩ := h
  obtain ⟨k, hk, hgd⟩ := mem_index [] routes r hr
  have hmem := getD_mem_zip [] 0 routes loads k hk (by omega)
  have hload : loads.getD k 0 = demandSum demands (routes.getD k []) := (hall _ hmem).1
  have hcap2 : loads.getD k 0 ≤ cap ∨
      ∃ c, routes.getD k [] = [c] ∧ cap < demands.getD (c - 1) 0 := (hall _ hmem).2
  rw [hgd] at hload hcap2
  rcases hcap2 with hle | hex
  · exact Or.inl (by rw [← hload]; exact hle)
  · exact Or.inr hex

/-! ## C1: customer conservation -/

/-- C1: for every input, the concatenation of the routes returned by
`clarke_wright` is a permutation of `[1, …, N]` — every customer appears
in exactly one route, exactly once, through both the greedy merge pass
and the fleet-reduction pass. -/
theorem clarke_wright_partition {α : Type} (d : α → α → ℚ) (depot : α)
    (customers : List α) (demands : List ℚ) (cap : ℚ) (numV : ℕ) :
    (clarke_wright d depot customers demands cap numV).1.flatten.Perm
      (List.range' 1 customers.length) := by
  unfold clarke_wright
  by_cases hn : customers.length = 0
  · rw [if_pos hn, hn]
    simp
  · rw [if_neg hn]
    simp only
    rw [← Multiset.coe_eq_coe, ← routesMS_eq_flatten]
    exact (pipeline_inv cap demands numV customers.length
      (savingsSorted (create_distance_matrix d depot customers) customers.length)
      _ (init_mergeInv cap demands customers.length)).1

/-! ## C2: capacity feasibility -/

/-- C2: every route returned by `clarke_wright` has load (the sum of its
members' demands) at most the vehicle capacity, except possibly a
singleton route whose single customer's demand alone exceeds the
capacity; no merge in either pass produces an over-capacity route. -/
theorem clarke_wright_capacity {α : Type} (d : α → α → ℚ) (depot : α)
    (customers : List α) (demands : List ℚ) (cap : ℚ) (numV : ℕ) :
    ∀ r ∈ (clarke_wright d depot customers demands cap numV).1,
      demandSum demands r ≤ cap ∨ ∃ c, r = [c] ∧ cap < demands.getD (c - 1) 0 := by
  intro r hr
  unfold clarke_wright at hr
  by_cases hn : customers.length = 0
  · rw [if_pos hn] at hr
    simp at hr
  · rw [if_neg hn] at hr
    simp only at hr
    exact fleetInv_routes cap demands _ _
      (pipeline_inv cap demands numV customers.length
        (savingsSorted (create_distance_matrix d depot customers) customers.length)
        _ (init_mergeInv cap demands customers.length)).2 r hr

theorem clarke_wright_capacity_witness :
    demandSum [(5 : ℚ)] [1] ≤ 10 ∨
      ∃ c, [1] = [c] ∧ (10 : ℚ) < [(5 : ℚ)].getD (c - 1) 0 :=
  clarke_wright_capacity (fun _ _ => 0) (0 : ℚ) [0] [(5 : ℚ)] 10 1 [1] (by decide)

end VRP
